import Mathlib

/-!
Verification of the humanhash compressor/humanizer (src/index.js).

The JavaScript source is shallowly embedded: byte values flowing out of
`parseInt(x, 16)` are modelled as `Option Nat` where `none` stands for the
JavaScript `NaN`, runtime `TypeError`s and the two thrown `Error`s are
modelled by an explicit error type, and arrays become lists.
-/

/-- Errors the JavaScript code can raise: the two explicit `throw new Error`
sites (wordlist length check and insufficient input check) and the implicit
runtime `TypeError`s (calling a method of `undefined` / `null`, or
`reduce` of an empty array). -/
inductive JsError where
  | invalidConfiguration
  | insufficientInput
  | typeError
  deriving DecidableEq, Repr

/-- The `DEFAULT_WORDLIST` constant of src/index.js, verbatim. -/
def DEFAULT_WORDLIST : List String := [
    "ack", "alabama", "alanine", "alaska", "alpha", "angel", "apart", "april",
    "arizona", "arkansas", "artist", "asparagus", "aspen", "august", "autumn",
    "avocado", "bacon", "bakerloo", "batman", "beer", "berlin", "beryllium",
    "black", "blossom", "blue", "bluebird", "bravo", "bulldog", "burger",
    "butter", "california", "carbon", "cardinal", "carolina", "carpet", "cat",
    "ceiling", "charlie", "chicken", "coffee", "cola", "cold", "colorado",
    "comet", "connecticut", "crazy", "cup", "dakota", "december", "delaware",
    "delta", "diet", "don", "double", "early", "earth", "east", "echo",
    "edward", "eight", "eighteen", "eleven", "emma", "enemy", "equal",
    "failed", "fanta", "fifteen", "fillet", "finch", "fish", "five", "fix",
    "floor", "florida", "football", "four", "fourteen", "foxtrot", "freddie",
    "friend", "fruit", "gee", "georgia", "glucose", "golf", "green", "grey",
    "hamper", "happy", "harry", "hawaii", "helium", "high", "hot", "hotel",
    "hydrogen", "idaho", "illinois", "india", "indigo", "ink", "iowa",
    "island", "item", "jersey", "jig", "johnny", "juliet", "july", "jupiter",
    "kansas", "kentucky", "kilo", "king", "kitten", "lactose", "lake", "lamp",
    "lemon", "leopard", "lima", "lion", "lithium", "london", "louisiana",
    "low", "magazine", "magnesium", "maine", "mango", "march", "mars",
    "maryland", "massachusetts", "may", "mexico", "michigan", "mike",
    "minnesota", "mirror", "mississippi", "missouri", "mobile", "mockingbird",
    "monkey", "montana", "moon", "mountain", "muppet", "music", "nebraska",
    "neptune", "network", "nevada", "nine", "nineteen", "nitrogen", "north",
    "november", "nuts", "october", "ohio", "oklahoma", "one", "orange",
    "oranges", "oregon", "oscar", "oven", "oxygen", "papa", "paris", "pasta",
    "pennsylvania", "pip", "pizza", "pluto", "potato", "princess", "purple",
    "quebec", "queen", "quiet", "red", "river", "robert", "robin", "romeo",
    "rugby", "sad", "salami", "saturn", "september", "seven", "seventeen",
    "shade", "sierra", "single", "sink", "six", "sixteen", "skylark", "snake",
    "social", "sodium", "solar", "south", "spaghetti", "speaker", "spring",
    "stairway", "steak", "stream", "summer", "sweet", "table", "tango", "ten",
    "tennessee", "tennis", "texas", "thirteen", "three", "timing", "triple",
    "twelve", "twenty", "two", "uncle", "undress", "uniform", "uranus", "utah",
    "vegan", "venus", "vermont", "victor", "video", "violet", "virginia",
    "washington", "west", "whiskey", "white", "william", "winner", "winter",
    "wisconsin", "wolfram", "wyoming", "xray", "yankee", "yellow", "zebra",
    "zulu"]

/-- Numeric value of a single hexadecimal character, `none` for a non-hex
character. Character ranges are expressed on code points: 48-57 is 0-9,
97-102 is a-f, 65-70 is A-F. -/
def hexVal (c : Char) : Option Nat :=
  if 48 ≤ c.toNat ∧ c.toNat ≤ 57 then some (c.toNat - 48)
  else if 97 ≤ c.toNat ∧ c.toNat ≤ 102 then some (c.toNat - 97 + 10)
  else if 65 ≤ c.toNat ∧ c.toNat ≤ 70 then some (c.toNat - 65 + 10)
  else none

/-- Accumulate the value of the longest prefix of hexadecimal digits,
as `parseInt` does after locating the start of the number. -/
def parseHexDigits : Nat → List Char → Nat
  | acc, [] => acc
  | acc, c :: rest =>
    match hexVal c with
    | some v => parseHexDigits (acc * 16 + v) rest
    | none => acc

/-- Model of JavaScript `parseInt(s, 16)` on the short strings produced by
the pair-splitting regex: an optional `0x`/`0X` prefix is stripped, then the
longest prefix of hex digits is read; if it is empty the result is `NaN`,
modelled as `none`. (Leading whitespace and signs never occur in the
regex-produced groups, so they are not modelled.) -/
def parseIntHex (chars : List Char) : Option Nat :=
  let stripped :=
    match chars with
    | '0' :: 'x' :: rest => rest
    | '0' :: 'X' :: rest => rest
    | cs => cs
  match stripped with
  | [] => none
  | c :: _ =>
    match hexVal c with
    | some _ => some (parseHexDigits 0 stripped)
    | none => none

/-- Model of `hexdigest.match(/(..?)/g)`: the string is split left to right
into groups of two characters, with a final one-character group when the
length is odd. (On the empty string `match` returns `null`; callers handle
that case, see `humanize`.) -/
def pairsOf : List Char → List (List Char)
  | [] => []
  | [a] => [[a]]
  | a :: b :: rest => [a, b] :: pairsOf rest

/-- JavaScript `ToInt32` restricted to the values that occur here:
`NaN` (`none`) converts to `0`, small non-negative numbers to themselves. -/
def toInt32 : Option Nat → Nat
  | none => 0
  | some n => n

/-- One step of the reducer `(acc, curr) => acc ^ curr`: JavaScript `^`
converts both operands with `ToInt32` and always yields a number. -/
def xorStep (acc curr : Option Nat) : Option Nat :=
  some (toInt32 acc ^^^ toInt32 curr)

/-- Model of `x.reduce((acc, curr) => acc ^ curr)` with no initial value:
the first element seeds the accumulator (and is returned unconverted for a
singleton array); an empty array raises a `TypeError`. -/
def reduce1 : List (Option Nat) → Except JsError (Option Nat)
  | [] => .error .typeError
  | h :: t => .ok (t.foldl xorStep h)

/-- `segments.map(f)` where `f` can throw: the first exception propagates,
evaluation is left to right. -/
def mapExcept (f : α → Except JsError β) : List α → Except JsError (List β)
  | [] => .ok []
  | a :: as =>
    match f a with
    | .error e => .error e
    | .ok b =>
      match mapExcept f as with
      | .error e => .error e
      | .ok bs => .ok (b :: bs)

/-- The segment-building part of `_compress` (src/index.js lines 107-117):
`seg_size = length/target >> 0`; the `for` loop pushes
`bytes.slice(i, i+seg_size)` for `i = 0, seg_size, ...` while
`i < seg_size*target` (that is `target` slices when `seg_size > 0`, none
when `seg_size = 0`); then the remainder `bytes.slice(target*seg_size)` is
concatenated onto the last pushed segment — reading
`segments[segments.length - 1]` of an empty array gives `undefined`, whose
`concat` raises a `TypeError`. -/
def segmentsOf (bytes : List α) (target : Nat) : Except JsError (List (List α)) :=
  let seg_size := bytes.length / target
  let iters := if seg_size = 0 then 0 else target
  let segs := (List.range iters).map (fun k => (bytes.drop (k * seg_size)).take seg_size)
  if segs.isEmpty then .error .typeError
  else .ok (segs.dropLast ++ [(segs.getLast?.getD []) ++ bytes.drop (target * seg_size)])

/-- `_compress(bytes, target)` of src/index.js: guard
`if(target > length) throw`, build the segments, XOR-fold each one. -/
def _compress (bytes : List (Option Nat)) (target : Nat) : Except JsError (List (Option Nat)) :=
  if target > bytes.length then .error .insufficientInput
  else (segmentsOf bytes target).bind (mapExcept reduce1)

/-- The `HumanHasher` instance state: just the word list. -/
structure HumanHasher where
  wordlist : List String
  deriving DecidableEq, Repr

/-- The `HumanHasher` constructor:
`if(wordlist.length !== 256) throw new Error(...)`. -/
def mkHumanHasher (wordlist : List String) : Except JsError HumanHasher :=
  if wordlist.length ≠ 256 then .error .invalidConfiguration
  else .ok ⟨wordlist⟩

/-- `this.wordlist[x]` as it reaches `join`: indexing with `NaN` (`none`) or
an out-of-range index gives `undefined`, which `Array.prototype.join`
renders as the empty string. -/
def lookupWord (wl : List String) : Option Nat → String
  | none => ""
  | some n => wl.getD n ""

/-- `humanize(hexdigest, words, separator)` of src/index.js: split the
digest into hex pairs (on the empty string `match` returns `null` and the
subsequent `.map` raises a `TypeError`), parse each pair, compress, then
look every checksum byte up in the word list and join with the
separator. -/
def humanize (h : HumanHasher) (hexdigest : String) (words : Nat) (separator : String) : Except JsError String :=
  if hexdigest.data.isEmpty then .error .typeError
  else
    (_compress ((pairsOf hexdigest.data).map parseIntHex) words).map
      (fun compressed => String.intercalate separator (compressed.map (lookupWord h.wordlist)))

/-- XOR-fold of a non-empty list of byte values, seeded with the first
element (`0` for the empty list, which never occurs). Used to state what
`reduce1` computes on lists of genuine (non-`NaN`) bytes. -/
def xorFold1 : List Nat → Nat
  | [] => 0
  | h :: t => t.foldl (fun a b => a ^^^ b) h

/-- Closed form of the segments `_compress` builds when `1 ≤ target` and
`target ≤ bytes.length`: `target - 1` chunks of `seg_size` bytes followed by
the rest of the list. -/
def segsList (bytes : List α) (target : Nat) : List (List α) :=
  let s := bytes.length / target
  ((List.range (target - 1)).map (fun k => (bytes.drop (k * s)).take s)) ++
    [bytes.drop ((target - 1) * s)]

/-- Concatenating `t` consecutive chunks of `s` elements starting at offset
`0` yields the first `s * t` elements. -/
theorem chunks_flatten (s : Nat) (l : List α) (t : Nat) :
    ((List.range t).map (fun k => (l.drop (k * s)).take s)).flatten = l.take (s * t) := by
  induction t with
  | zero => simp
  | succ t ih =>
    rw [List.range_succ, List.map_append, List.flatten_append, ih]
    simp only [List.map_cons, List.map_nil, List.flatten_cons, List.flatten_nil,
      List.append_nil]
    rw [Nat.mul_succ, List.take_add, Nat.mul_comm t s]

/-- Reading the element right after a list prefix picks the appended
element. -/
theorem getD_append_length (A : List β) (x d : β) (n : Nat) (h : n = A.length) :
    (A ++ [x]).getD n d = x := by
  subst h
  rw [List.getD_eq_getElem _ _ (by simp)]
  simp

/-- On inputs satisfying the guard of `_compress`, the segment construction
succeeds and produces the closed-form segment list `segsList`. -/
theorem segmentsOf_ok (bytes : List α) (t : Nat) (h1 : 1 ≤ t) (h2 : t ≤ bytes.length) :
    segmentsOf bytes t = .ok (segsList bytes t) := by
  have hs : 1 ≤ bytes.length / t := (Nat.one_le_div_iff (by omega)).2 h2
  obtain ⟨u, rfl⟩ : ∃ u, t = u + 1 := ⟨t - 1, by omega⟩
  have hs0 : ¬(bytes.length / (u + 1) = 0) := by omega
  have hjoin : (bytes.drop (u * (bytes.length / (u + 1)))).take (bytes.length / (u + 1)) ++
      bytes.drop ((u + 1) * (bytes.length / (u + 1))) =
      bytes.drop (u * (bytes.length / (u + 1))) := by
    have hdd := List.take_append_drop (bytes.length / (u + 1))
      (bytes.drop (u * (bytes.length / (u + 1))))
    rw [List.drop_drop] at hdd
    rw [show (u + 1) * (bytes.length / (u + 1)) =
      u * (bytes.length / (u + 1)) + bytes.length / (u + 1) from Nat.succ_mul u _]
    exact hdd
  unfold segmentsOf segsList
  simp only [if_neg hs0, Nat.add_sub_cancel]
  rw [List.range_succ, List.map_append]
  simp only [List.map_cons, List.map_nil]
  rw [List.dropLast_concat, List.getLast?_concat]
  simp only [Option.getD_some]
  rw [hjoin]
  simp

/-- `segsList` has exactly `target` segments. -/
theorem segsList_length (bytes : List α) (t : Nat) (h1 : 1 ≤ t) :
    (segsList bytes t).length = t := by
  simp [segsList]
  omega

/-- Every segment of `segsList` except the last has exactly
`bytes.length / target` elements. -/
theorem segsList_getD_of_lt (bytes : List α) (t i : Nat)
    (hi : i + 1 < t) : ((segsList bytes t).getD i []).length = bytes.length / t := by
  have hle : i * (bytes.length / t) + bytes.length / t ≤ bytes.length := by
    calc i * (bytes.length / t) + bytes.length / t
        = (i + 1) * (bytes.length / t) := by ring
      _ ≤ t * (bytes.length / t) := Nat.mul_le_mul_right _ (by omega)
      _ = bytes.length / t * t := Nat.mul_comm _ _
      _ ≤ bytes.length := Nat.div_mul_le_self _ _
  unfold segsList
  rw [List.getD_append _ _ _ i (by simp; omega)]
  rw [List.getD_eq_getElem _ _ (by simp; omega), List.getElem_map, List.getElem_range]
  simp only [List.length_take, List.length_drop]
  omega

/-- The last segment of `segsList` has `bytes.length / target` elements plus
the `bytes.length % target` remainder bytes. -/
theorem segsList_last_length (bytes : List α) (t : Nat) (h1 : 1 ≤ t)
    (h2 : t ≤ bytes.length) :
    ((segsList bytes t).getD (t - 1) []).length =
      bytes.length / t + bytes.length % t := by
  obtain ⟨u, rfl⟩ : ∃ u, t = u + 1 := ⟨t - 1, by omega⟩
  have hmod := Nat.div_add_mod bytes.length (u + 1)
  have hs : 1 ≤ bytes.length / (u + 1) := (Nat.one_le_div_iff (by omega)).2 h2
  have hmul : (u + 1) * (bytes.length / (u + 1)) ≤ bytes.length := by
    calc (u + 1) * (bytes.length / (u + 1))
        = bytes.length / (u + 1) * (u + 1) := Nat.mul_comm _ _
      _ ≤ bytes.length := Nat.div_mul_le_self _ _
  have hstep : (u + 1) * (bytes.length / (u + 1)) =
      u * (bytes.length / (u + 1)) + bytes.length / (u + 1) := Nat.succ_mul u _
  unfold segsList
  simp only [Nat.add_sub_cancel]
  rw [getD_append_length _ _ _ u (by simp)]
  rw [List.length_drop]
  omega

/-- The segments concatenate, in order, back to the input bytes. -/
theorem segsList_flatten (bytes : List α) (t : Nat) :
    (segsList bytes t).flatten = bytes := by
  unfold segsList
  rw [List.flatten_append, chunks_flatten]
  simp only [List.flatten_cons, List.flatten_nil, List.append_nil]
  rw [Nat.mul_comm]
  exact List.take_append_drop _ _

/-- Under the `_compress` guard every segment is non-empty. -/
theorem segsList_ne_nil (bytes : List α) (t : Nat) (h1 : 1 ≤ t) (h2 : t ≤ bytes.length) :
    ∀ x ∈ segsList bytes t, x ≠ [] := by
  have hs : 1 ≤ bytes.length / t := (Nat.one_le_div_iff (by omega)).2 h2
  intro x hx
  unfold segsList at hx
  rcases List.mem_append.1 hx with hmem | hmem
  · obtain ⟨k, hk, rfl⟩ := List.mem_map.1 hmem
    have hk' : k < t - 1 := List.mem_range.1 hk
    have hle : k * (bytes.length / t) + bytes.length / t ≤ bytes.length := by
      calc k * (bytes.length / t) + bytes.length / t
          = (k + 1) * (bytes.length / t) := (Nat.succ_mul k _).symm
        _ ≤ t * (bytes.length / t) := Nat.mul_le_mul_right _ (by omega)
        _ = bytes.length / t * t := Nat.mul_comm _ _
        _ ≤ bytes.length := Nat.div_mul_le_self _ _
    apply List.ne_nil_of_length_pos
    simp only [List.length_take, List.length_drop]
    omega
  · have hx' : x = bytes.drop ((t - 1) * (bytes.length / t)) := by simpa using hmem
    subst hx'
    have hle : (t - 1) * (bytes.length / t) + bytes.length / t ≤ bytes.length := by
      calc (t - 1) * (bytes.length / t) + bytes.length / t
          = (t - 1 + 1) * (bytes.length / t) := (Nat.succ_mul _ _).symm
        _ = t * (bytes.length / t) := by congr 1; omega
        _ = bytes.length / t * t := Nat.mul_comm _ _
        _ ≤ bytes.length := Nat.div_mul_le_self _ _
    apply List.ne_nil_of_length_pos
    simp only [List.length_drop]
    omega

/-- `segsList` commutes with mapping a function over the bytes. -/
theorem segsList_map (f : α → β) (bytes : List α) (t : Nat) :
    segsList (bytes.map f) t = (segsList bytes t).map (List.map f) := by
  unfold segsList
  simp [List.map_take, List.map_drop, List.map_map, Function.comp]

/-- Folding genuine bytes with the JavaScript XOR reducer step stays inside
`some` and computes the plain XOR fold. -/
theorem foldl_xorStep_some (t : List Nat) : ∀ a : Nat,
    (t.map some).foldl xorStep (some a) = some (t.foldl (fun x y => x ^^^ y) a) := by
  induction t with
  | nil => intro a; rfl
  | cons b t ih => intro a; simpa [xorStep, toInt32] using ih (a ^^^ b)

/-- `reduce1` on a non-empty list of genuine bytes succeeds with the XOR
fold seeded by the first element. -/
theorem reduce1_map_some (l : List Nat) (h : l ≠ []) :
    reduce1 (l.map some) = .ok (some (xorFold1 l)) := by
  cases l with
  | nil => exact absurd rfl h
  | cons a t =>
    simp only [List.map_cons, reduce1, xorFold1]
    rw [foldl_xorStep_some]

/-- `mapExcept reduce1` over segments of genuine bytes succeeds segmentwise
when every segment is non-empty. -/
theorem mapExcept_reduce1_map_some (L : List (List Nat)) (h : ∀ x ∈ L, x ≠ []) :
    mapExcept reduce1 (L.map (List.map some)) =
      .ok (L.map (fun seg => some (xorFold1 seg))) := by
  induction L with
  | nil => rfl
  | cons a as ih =>
    simp only [List.map_cons, mapExcept]
    rw [reduce1_map_some a (h a (by simp))]
    rw [ih (fun x hx => h x (by simp [hx]))]

/-- Master lemma: on genuine bytes satisfying the guard, `_compress`
returns the per-segment XOR folds of the closed-form segments. -/
theorem compress_ok (bytes : List Nat) (t : Nat) (h1 : 1 ≤ t) (h2 : t ≤ bytes.length) :
    _compress (bytes.map some) t =
      .ok ((segsList bytes t).map (fun seg => some (xorFold1 seg))) := by
  unfold _compress
  rw [if_neg (by simp only [List.length_map, gt_iff_lt, not_lt]; omega)]
  rw [segmentsOf_ok (bytes.map some) t h1 (by simpa using h2)]
  rw [segsList_map]
  exact mapExcept_reduce1_map_some _ (segsList_ne_nil bytes t h1 h2)

/-- When the target equals the byte count every segment is a singleton and
the XOR folds give back exactly the input bytes. -/
theorem segsList_at_length (l : List Nat) (h : 1 ≤ l.length) :
    (segsList l l.length).map (fun seg => some (xorFold1 seg)) = l.map some := by
  have hs : l.length / l.length = 1 := Nat.div_self (by omega)
  apply List.ext_getElem
  · simp [segsList]
    omega
  · intro n h₁ h₂
    have hn : n < l.length := by simpa using h₂
    have hn2 : n < (segsList l l.length).length := by simpa using h₁
    rw [List.getElem_map]
    rw [List.getElem_map]
    by_cases hlast : n < l.length - 1
    · have hgets : (segsList l l.length)[n] =
          (l.drop (n * (l.length / l.length))).take (l.length / l.length) := by
        unfold segsList
        rw [List.getElem_append_left (by simpa using hlast)]
        rw [List.getElem_map, List.getElem_range]
      have htake : (l.drop n).take 1 = [l[n]] := by
        rw [List.drop_eq_getElem_cons hn]
        rfl
      rw [hgets, hs, Nat.mul_one, htake]
      rfl
    · have hn' : n = l.length - 1 := by omega
      have hgets : (segsList l l.length)[n] =
          l.drop ((l.length - 1) * (l.length / l.length)) := by
        unfold segsList
        rw [List.getElem_append_right (by simp; omega)]
        simp
      rw [hgets, hs, Nat.mul_one]
      rw [List.drop_eq_getElem_cons (show l.length - 1 < l.length by omega)]
      rw [show l.length - 1 + 1 = l.length from by omega, List.drop_length]
      subst hn'
      rfl

/-- The pair-splitting regex produces one group per two characters, rounded
up. -/
theorem pairsOf_length (cs : List Char) : (pairsOf cs).length = (cs.length + 1) / 2 := by
  induction cs using pairsOf.induct with
  | case1 => simp [pairsOf]
  | case2 a => simp [pairsOf]
  | case3 a b rest ih => simp [pairsOf, ih]; omega

/-- Every group the regex produces is non-empty and drawn from the input
characters. -/
theorem pairsOf_sublists (cs : List Char) :
    ∀ p ∈ pairsOf cs, p ≠ [] ∧ ∀ c ∈ p, c ∈ cs := by
  induction cs using pairsOf.induct with
  | case1 => intro p hp; simp [pairsOf] at hp
  | case2 a =>
    intro p hp
    simp only [pairsOf, List.mem_singleton] at hp
    subst hp
    simp
  | case3 a b rest ih =>
    intro p hp
    simp only [pairsOf, List.mem_cons] at hp
    rcases hp with rfl | hp
    · constructor
      · simp
      · intro c hc
        simp only [List.mem_cons, List.not_mem_nil, or_false] at hc
        rcases hc with rfl | rfl <;> simp
    · obtain ⟨hne, hsub⟩ := ih p hp
      exact ⟨hne, fun c hc => by simp [hsub c hc]⟩

/-- The regex produces no group only on the empty string. -/
theorem pairsOf_eq_nil_iff (cs : List Char) : pairsOf cs = [] ↔ cs = [] := by
  induction cs using pairsOf.induct <;> simp [pairsOf]

/-- A hex digit value is below 16. -/
theorem hexVal_lt_16 (c : Char) (v : Nat) (h : hexVal c = some v) : v < 16 := by
  unfold hexVal at h
  split_ifs at h <;> simp only [Option.some.injEq] at h <;> omega

/-- `parseInt` on a single hex digit returns its value. -/
theorem parseIntHex_single (c : Char) (v : Nat) (h : hexVal c = some v) :
    parseIntHex [c] = some v := by
  simp [parseIntHex, parseHexDigits, h]

/-- `parseInt` succeeds on every non-empty all-hex group. -/
theorem parseIntHex_hex (p : List Char) (hne : p ≠ [])
    (hhex : ∀ c ∈ p, (hexVal c).isSome) : ∃ v, parseIntHex p = some v := by
  unfold parseIntHex
  split
  · exact absurd (hhex 'x' (by simp)) (by decide)
  · exact absurd (hhex 'X' (by simp)) (by decide)
  · cases p with
    | nil => exact absurd rfl hne
    | cons c rest =>
      obtain ⟨v, hv⟩ := Option.isSome_iff_exists.1 (hhex c (by simp))
      exact ⟨parseHexDigits 0 (c :: rest), by simp [hv]⟩

/-- A list of options that are all `some` is the `some`-image of a plain
list. -/
theorem all_isSome_exists_map (l : List (Option β)) (h : ∀ x ∈ l, x.isSome) :
    ∃ raw : List β, l = raw.map some := by
  induction l with
  | nil => exact ⟨[], rfl⟩
  | cons a as ih =>
    obtain ⟨raw, hraw⟩ := ih (fun x hx => h x (by simp [hx]))
    obtain ⟨v, hv⟩ := Option.isSome_iff_exists.1 (h a (by simp))
    exact ⟨v :: raw, by simp [hv, hraw]⟩

/-- On a non-empty all-hex digest with `1 ≤ n ≤ ceil(length/2)`, `humanize`
succeeds and returns exactly `n` words joined by the separator. -/
theorem humanize_ok (hh : HumanHasher) (d : String) (n : Nat) (sep : String)
    (hne : d.data ≠ []) (hhex : ∀ c ∈ d.data, (hexVal c).isSome)
    (h1 : 1 ≤ n) (h2 : n ≤ (d.data.length + 1) / 2) :
    ∃ ws : List String, ws.length = n ∧
      humanize hh d n sep = .ok (String.intercalate sep ws) := by
  have hbytes : ∀ x ∈ (pairsOf d.data).map parseIntHex, x.isSome := by
    intro x hx
    obtain ⟨p, hp, rfl⟩ := List.mem_map.1 hx
    obtain ⟨hpne, hpsub⟩ := pairsOf_sublists d.data p hp
    obtain ⟨v, hv⟩ := parseIntHex_hex p hpne (fun c hc => hhex c (hpsub c hc))
    simp [hv]
  obtain ⟨raw, hraw⟩ := all_isSome_exists_map _ hbytes
  have hrawlen : raw.length = (d.data.length + 1) / 2 := by
    have hlen : ((pairsOf d.data).map parseIntHex).length = (d.data.length + 1) / 2 := by
      simp [pairsOf_length]
    rw [hraw] at hlen
    simpa using hlen
  unfold humanize
  rw [if_neg (by simpa [List.isEmpty_iff] using hne)]
  rw [hraw, compress_ok raw n h1 (by omega)]
  refine ⟨(segsList raw n).map
    (fun seg => lookupWord hh.wordlist (some (xorFold1 seg))), ?_, ?_⟩
  · simp [segsList_length raw n h1]
  · simp [Except.map, List.map_map, Function.comp_def]

/-- `segmentsOf` only ever fails with a `TypeError`. -/
theorem segmentsOf_error_typeError (bytes : List (Option Nat)) (target : Nat)
    (e : JsError) (h : segmentsOf bytes target = .error e) : e = .typeError := by
  unfold segmentsOf at h
  dsimp only [] at h
  repeat' split at h
  all_goals
    first
      | exact (Except.error.inj h).symm
      | exact absurd h (by simp)

/-- `mapExcept reduce1` only ever fails with a `TypeError`. -/
theorem mapExcept_reduce1_no_insufficient (l : List (List (Option Nat))) :
    mapExcept reduce1 l ≠ .error .insufficientInput := by
  induction l with
  | nil => simp [mapExcept]
  | cons a as ih =>
    intro h
    simp only [mapExcept] at h
    cases a with
    | nil => simp [reduce1] at h
    | cons b bs =>
      simp only [reduce1] at h
      cases hm : mapExcept reduce1 as with
      | error e =>
        rw [hm] at h
        simp only [Except.error.injEq] at h
        exact ih (by rw [hm, h])
      | ok bs' =>
        rw [hm] at h
        simp at h

/-- On an odd-length string the last regex group is the single last
character. -/
theorem pairsOf_getLast_odd (cs : List Char) (hodd : cs.length % 2 = 1) :
    ∃ c, cs.getLast? = some c ∧ (pairsOf cs).getLast? = some [c] := by
  induction cs using pairsOf.induct with
  | case1 => simp at hodd
  | case2 a => exact ⟨a, rfl, rfl⟩
  | case3 a b rest ih =>
    have hrodd : rest.length % 2 = 1 := by
      simp only [List.length_cons] at hodd
      omega
    have hrne : rest ≠ [] := by
      intro hcon
      rw [hcon] at hrodd
      simp at hrodd
    obtain ⟨c, hc1, hc2⟩ := ih hrodd
    refine ⟨c, ?_, ?_⟩
    · rw [List.getLast?_cons, List.getLast?_cons]
      simp [hc1]
    · rw [show pairsOf (a :: b :: rest) = [a, b] :: pairsOf rest from rfl]
      rw [List.getLast?_cons]
      simp [hc2]

/-- XOR folding over bytes below 256 stays below 256. -/
theorem foldl_xor_lt (t : List Nat) : ∀ a : Nat, a < 256 → (∀ b ∈ t, b < 256) →
    t.foldl (fun x y => x ^^^ y) a < 256 := by
  induction t with
  | nil => intro a ha _; simpa using ha
  | cons b t ih =>
    intro a ha hb
    simp only [List.foldl_cons]
    have e : (2 : Nat) ^ 8 = 256 := by norm_num
    have ha' : a < 2 ^ 8 := by rw [e]; exact ha
    have hb' : b < 2 ^ 8 := by rw [e]; exact hb b (by simp)
    have h8 : a ^^^ b < 256 := by rw [← e]; exact Nat.xor_lt_two_pow ha' hb'
    exact ih (a ^^^ b) h8 (fun x hx => hb x (by simp [hx]))

/-- The seeded XOR fold of a list of bytes below 256 is below 256. -/
theorem xorFold1_lt (s : List Nat) (h : ∀ b ∈ s, b < 256) : xorFold1 s < 256 := by
  cases s with
  | nil => simp [xorFold1]
  | cons a t =>
    simp only [xorFold1]
    exact foldl_xor_lt t a (h a (by simp)) (fun b hb => h b (by simp [hb]))

/-- C1: for every byte sequence of length `N` and target `T` with
`1 ≤ T ≤ N`, `_compress` partitions the bytes into exactly `T` contiguous
segments; segments `0 .. T-2` each hold `N / T` bytes, the last holds
`N / T + N % T` bytes, the segments concatenate back to the input, and the
result is the per-segment seeded left-to-right XOR fold in segment
order. -/
theorem compress_partition_fold (bytes : List Nat) (target : Nat)
    (h1 : 1 ≤ target) (h2 : target ≤ bytes.length) :
    ∃ segs : List (List Nat),
      segmentsOf bytes target = Except.ok segs ∧
      segs.length = target ∧
      (∀ i, i + 1 < target → (segs.getD i []).length = bytes.length / target) ∧
      (segs.getD (target - 1) []).length =
        bytes.length / target + bytes.length % target ∧
      segs.flatten = bytes ∧
      _compress (bytes.map some) target =
        Except.ok (segs.map (fun seg => some (xorFold1 seg))) :=
  ⟨segsList bytes target, segmentsOf_ok bytes target h1 h2,
    segsList_length bytes target h1,
    fun i hi => segsList_getD_of_lt bytes target i hi,
    segsList_last_length bytes target h1 h2,
    segsList_flatten bytes target,
    compress_ok bytes target h1 h2⟩

/-- Witness for C1 at bytes `[1, 2, 3]` and target `2`. -/
theorem compress_partition_fold_witness :
    ∃ segs : List (List Nat),
      segmentsOf ([1, 2, 3] : List Nat) 2 = Except.ok segs ∧
      segs.length = 2 ∧
      (∀ i, i + 1 < 2 → (segs.getD i []).length = ([1, 2, 3] : List Nat).length / 2) ∧
      (segs.getD (2 - 1) []).length =
        ([1, 2, 3] : List Nat).length / 2 + ([1, 2, 3] : List Nat).length % 2 ∧
      segs.flatten = [1, 2, 3] ∧
      _compress (([1, 2, 3] : List Nat).map some) 2 =
        Except.ok (segs.map (fun seg => some (xorFold1 seg))) :=
  compress_partition_fold [1, 2, 3] 2 (by decide) (by decide)

/-- C2: when the target equals the byte count, `_compress` returns the
input bytes unchanged (singleton segments, identity fold). -/
theorem compress_identity_at_length (bytes : List Nat) (h : 1 ≤ bytes.length) :
    _compress (bytes.map some) bytes.length = Except.ok (bytes.map some) := by
  rw [compress_ok bytes bytes.length h (le_refl _)]
  rw [segsList_at_length bytes h]

/-- Witness for C2 at bytes `[0x1a, 0x2b]`. -/
theorem compress_identity_at_length_witness :
    _compress (([26, 43] : List Nat).map some) ([26, 43] : List Nat).length =
      Except.ok (([26, 43] : List Nat).map some) :=
  compress_identity_at_length [26, 43] (by decide)

/-- C3: `_compress` fails with `InsufficientInput` exactly when the target
exceeds the byte count — the guard is the first statement of the function,
before any segment is built — and in particular 2 bytes with target 3
fail. -/
theorem compress_insufficient_iff :
    (∀ (bytes : List (Option Nat)) (target : Nat),
        _compress bytes target = Except.error JsError.insufficientInput ↔
          bytes.length < target) ∧
    _compress [some 26, some 43] 3 = Except.error JsError.insufficientInput := by
  constructor
  · intro bytes target
    constructor
    · intro h
      by_contra hc
      push_neg at hc
      unfold _compress at h
      rw [if_neg (by omega)] at h
      cases hseg : segmentsOf bytes target with
      | error e =>
        rw [hseg] at h
        have he := segmentsOf_error_typeError bytes target e hseg
        subst he
        simp [Except.bind] at h
      | ok segs =>
        rw [hseg] at h
        simp only [Except.bind] at h
        exact mapExcept_reduce1_no_insufficient segs h
    · intro h
      unfold _compress
      rw [if_pos (by omega)]
  · rfl

/-- C4: the constructor fails with `InvalidConfiguration` exactly when the
word list does not have 256 entries, and succeeds on any 256-entry list
regardless of its content. -/
theorem humanhasher_config_validation (wordlist : List String) :
    (mkHumanHasher wordlist = Except.error JsError.invalidConfiguration ↔
      wordlist.length ≠ 256) ∧
    (wordlist.length = 256 → mkHumanHasher wordlist = Except.ok ⟨wordlist⟩) := by
  unfold mkHumanHasher
  by_cases hl : wordlist.length = 256 <;> simp [hl]

/-- Witness for C4: a 256-entry list made of one duplicated word is
accepted. -/
theorem humanhasher_config_validation_witness :
    mkHumanHasher (List.replicate 256 "beer") =
      Except.ok ⟨List.replicate 256 "beer"⟩ :=
  (humanhasher_config_validation (List.replicate 256 "beer")).2
    (List.length_replicate _ _)

/-- C5: on a valid hex digest (non-empty, even length, hex characters) and
`1 ≤ wordCount ≤ byteLength`, `humanize` returns exactly `wordCount` words
joined by the separator. -/
theorem humanize_word_count (hh : HumanHasher) (d : String) (n : Nat) (sep : String)
    (hne : d.data ≠ []) (heven : d.data.length % 2 = 0)
    (hhex : ∀ c ∈ d.data, (hexVal c).isSome)
    (h1 : 1 ≤ n) (h2 : n ≤ d.data.length / 2) :
    ∃ ws : List String, ws.length = n ∧
      humanize hh d n sep = Except.ok (String.intercalate sep ws) :=
  humanize_ok hh d n sep hne hhex h1 (by omega)

/-- Witness for C5 at digest `1a2b` and word count 2. -/
theorem humanize_word_count_witness :
    ∃ ws : List String, ws.length = 2 ∧
      humanize ⟨DEFAULT_WORDLIST⟩ "1a2b" 2 "-" =
        Except.ok (String.intercalate "-" ws) :=
  humanize_word_count ⟨DEFAULT_WORDLIST⟩ "1a2b" 2 "-" (by decide) (by decide)
    (by decide) (by decide) (by decide)

/-- C6: `humanize` is a pure function of the digest, word list, word count
and separator, so two calls with the same arguments agree. -/
theorem humanize_deterministic (hh : HumanHasher) (d : String) (n : Nat) (sep : String) :
    humanize hh d n sep = humanize hh d n sep := rfl

/-- C7 counterexample: the digest `1A2B3C4D` humanizes to
`bravo-comet-eighteen-fourteen` — entry 77 of the default word list is
`fourteen`, not `foxtrot` — so the phrase the claim names is not the
output. -/
theorem humanize_vector_counterexample :
    humanize ⟨DEFAULT_WORDLIST⟩ "1A2B3C4D" 4 "-" =
      Except.ok "bravo-comet-eighteen-fourteen" ∧
    DEFAULT_WORDLIST.getD 77 "" = "fourteen" ∧
    humanize ⟨DEFAULT_WORDLIST⟩ "1A2B3C4D" 4 "-" ≠
      Except.ok "bravo-comet-eighteen-foxtrot" := by
  refine ⟨rfl, rfl, ?_⟩
  intro h
  rw [show humanize ⟨DEFAULT_WORDLIST⟩ "1A2B3C4D" 4 "-" =
    Except.ok "bravo-comet-eighteen-fourteen" from rfl] at h
  exact absurd (Except.ok.inj h) (by decide)

/-- C7 amended: digest `1A2B3C4D` parses to bytes `[26, 43, 60, 77]`,
compresses to the same four checksums, and maps to the default-wordlist
words at indices 26, 43, 60, 77 — `bravo`, `comet`, `eighteen`,
`fourteen`; and any 10 input bytes with target 3 split into segments of
sizes `[3, 3, 4]` whose last checksum folds the last 4 bytes. -/
theorem humanize_vector_amended :
    (pairsOf "1A2B3C4D".data).map parseIntHex =
        [some 26, some 43, some 60, some 77] ∧
    _compress [some 26, some 43, some 60, some 77] 4 =
        Except.ok [some 26, some 43, some 60, some 77] ∧
    humanize ⟨DEFAULT_WORDLIST⟩ "1A2B3C4D" 4 "-" =
        Except.ok "bravo-comet-eighteen-fourteen" ∧
    ∀ bytes : List Nat, bytes.length = 10 →
      ∃ segs : List (List Nat),
        segmentsOf bytes 3 = Except.ok segs ∧
        segs.map List.length = [3, 3, 4] ∧
        segs.getD 2 [] = bytes.drop 6 ∧
        _compress (bytes.map some) 3 =
          Except.ok (segs.map (fun seg => some (xorFold1 seg))) := by
  refine ⟨rfl, rfl, rfl, ?_⟩
  intro bytes hlen
  have h103 : (10 : Nat) / 3 = 3 := by norm_num
  refine ⟨segsList bytes 3, segmentsOf_ok bytes 3 (by omega) (by omega), ?_, ?_,
    compress_ok bytes 3 (by omega) (by omega)⟩
  · unfold segsList
    rw [hlen, h103]
    simp [List.range_succ, List.length_take, List.length_drop, hlen]
  · unfold segsList
    rw [hlen, h103]
    rw [getD_append_length _ _ _ 2 (by simp)]

/-- Witness for the universal part of the amended C7 at the bytes
`[0, ..., 9]`. -/
theorem humanize_vector_amended_witness :
    ∃ segs : List (List Nat),
      segmentsOf ([0, 1, 2, 3, 4, 5, 6, 7, 8, 9] : List Nat) 3 = Except.ok segs ∧
      segs.map List.length = [3, 3, 4] ∧
      segs.getD 2 [] = ([0, 1, 2, 3, 4, 5, 6, 7, 8, 9] : List Nat).drop 6 ∧
      _compress (([0, 1, 2, 3, 4, 5, 6, 7, 8, 9] : List Nat).map some) 3 =
        Except.ok (segs.map (fun seg => some (xorFold1 seg))) :=
  humanize_vector_amended.2.2.2 [0, 1, 2, 3, 4, 5, 6, 7, 8, 9] rfl

/-- C8 evidence: `humanize` does not reject malformed hex input — an
all-non-hex digest silently produces an empty phrase (the `NaN` byte
indexes `undefined`, joined as the empty string), and an odd-length digest
is processed without error. -/
theorem humanize_silent_on_malformed :
    humanize ⟨DEFAULT_WORDLIST⟩ "zz" 1 "-" = Except.ok "" ∧
    humanize ⟨DEFAULT_WORDLIST⟩ "1A2" 2 "-" = Except.ok "bravo-alanine" :=
  ⟨rfl, rfl⟩

/-- C9: when every input byte is below 256, every checksum `_compress`
produces is below 256, so indexing a 256-entry word list with it is in
bounds. -/
theorem compress_checksum_in_range (bytes : List Nat) (hb : ∀ b ∈ bytes, b < 256)
    (target : Nat) (h1 : 1 ≤ target) (h2 : target ≤ bytes.length) :
    ∃ cs : List Nat,
      _compress (bytes.map some) target = Except.ok (cs.map some) ∧
      (∀ c ∈ cs, c < 256) ∧
      (∀ wl : List String, wl.length = 256 → ∀ c ∈ cs, c < wl.length) := by
  have hlt : ∀ c ∈ (segsList bytes target).map xorFold1, c < 256 := by
    intro c hc
    obtain ⟨seg, hseg, rfl⟩ := List.mem_map.1 hc
    apply xorFold1_lt
    intro b hbseg
    apply hb
    have hmem : b ∈ (segsList bytes target).flatten :=
      List.mem_flatten.2 ⟨seg, hseg, hbseg⟩
    rwa [segsList_flatten] at hmem
  refine ⟨(segsList bytes target).map xorFold1, ?_, hlt, ?_⟩
  · rw [compress_ok bytes target h1 h2]
    simp [List.map_map, Function.comp_def]
  · intro wl hwl c hc
    rw [hwl]
    exact hlt c hc

/-- Witness for C9 at bytes `[255, 1, 7]` and target 2. -/
theorem compress_checksum_in_range_witness :
    ∃ cs : List Nat,
      _compress (([255, 1, 7] : List Nat).map some) 2 = Except.ok (cs.map some) ∧
      (∀ c ∈ cs, c < 256) ∧
      (∀ wl : List String, wl.length = 256 → ∀ c ∈ cs, c < wl.length) :=
  compress_checksum_in_range [255, 1, 7] (by decide) 2 (by decide) (by decide)

/-- C10: an odd-length all-hex digest is accepted without error: the regex
yields `ceil(length/2)` groups, the final group is the single last
character, that character parses as its own byte value below 16, and the
phrase is computed over those bytes. -/
theorem humanize_odd_length (hh : HumanHasher) (d : String) (n : Nat) (sep : String)
    (hodd : d.data.length % 2 = 1) (hhex : ∀ c ∈ d.data, (hexVal c).isSome)
    (h1 : 1 ≤ n) (h2 : n ≤ (d.data.length + 1) / 2) :
    (∃ ws : List String, ws.length = n ∧
        humanize hh d n sep = Except.ok (String.intercalate sep ws)) ∧
    (pairsOf d.data).length = (d.data.length + 1) / 2 ∧
    ∃ c v, d.data.getLast? = some c ∧ (pairsOf d.data).getLast? = some [c] ∧
      parseIntHex [c] = some v ∧ v < 16 := by
  have hne : d.data ≠ [] := by
    intro hcon
    rw [hcon] at hodd
    simp at hodd
  refine ⟨humanize_ok hh d n sep hne hhex h1 h2, pairsOf_length d.data, ?_⟩
  obtain ⟨c, hc1, hc2⟩ := pairsOf_getLast_odd d.data hodd
  obtain ⟨v, hv⟩ := Option.isSome_iff_exists.1 (hhex c (List.mem_of_mem_getLast? hc1))
  exact ⟨c, v, hc1, hc2, parseIntHex_single c v hv, hexVal_lt_16 c v hv⟩

/-- Witness for C10 at digest `1A2` and word count 1. -/
theorem humanize_odd_length_witness :
    (∃ ws : List String, ws.length = 1 ∧
        humanize ⟨DEFAULT_WORDLIST⟩ "1A2" 1 "-" =
          Except.ok (String.intercalate "-" ws)) ∧
    (pairsOf "1A2".data).length = ("1A2".data.length + 1) / 2 ∧
    ∃ c v, "1A2".data.getLast? = some c ∧ (pairsOf "1A2".data).getLast? = some [c] ∧
      parseIntHex [c] = some v ∧ v < 16 :=
  humanize_odd_length ⟨DEFAULT_WORDLIST⟩ "1A2" 1 "-" (by decide) (by decide)
    (by decide) (by decide)
